import Mathlib

/-!
Verification development for a log-structured key/value store.

The store appends encoded `Set`/`Remove` records to numbered log files
("generations"), keeps an in-memory index from key to the byte range of the
key's most recent `Set` record, rebuilds the index from the log files on open,
and compacts stale bytes into a fresh generation when a threshold is crossed.

Byte strings are modelled as `List Nat` (each element a byte value).  Machine
integers of the program are modelled as `Nat`; file positions and lengths
cannot overflow in practice and are kept as plain naturals.
-/

set_option maxRecDepth 4000

/-- Byte strings: keys, values and file contents. -/
abbrev Bytes := List Nat

/-- Log record: a tagged union with the two variants written to the log.
Mirrors `enum Command` in `engines/kv.rs`. -/
inductive Command where
  | set (key value : Bytes)
  | remove (key : Bytes)
deriving DecidableEq, Repr

/-- Modelled from the spec: records are serialized to a self-describing binary
document format that is length-prefixed (BSON, produced by the `bson`
dependency whose source is outside this repository).  `u32le n` is the 4-byte
little-endian encoding of `n`. -/
def u32le (n : Nat) : List Nat :=
  [n % 256, n / 256 % 256, n / 65536 % 256, n / 16777216 % 256]

/-- Modelled from the spec: a BSON string element payload — a 4-byte length
(counting the terminating zero byte), the raw bytes, then a zero byte. -/
def bsonStr (s : Bytes) : List Nat :=
  u32le (s.length + 1) ++ s ++ [0]

/-- Field-name bytes of the outer document tag for a `Set` record
(the bytes of the zero-terminated name of the variant). -/
def setName : List Nat := [83, 101, 116, 0]

/-- Field-name bytes of the outer document tag for a `Remove` record. -/
def removeName : List Nat := [82, 101, 109, 111, 118, 101, 0]

/-- Element header for the `key` field: type byte 2 (string) and the
zero-terminated name bytes. -/
def elemKey : List Nat := [2, 107, 101, 121, 0]

/-- Element header for the `value` field. -/
def elemVal : List Nat := [2, 118, 97, 108, 117, 101, 0]

/-- Modelled from the spec: the length-prefixed binary encoding of one record.
The enum is externally tagged: `Set{key,value}` becomes the document
`{"Set": {"key": key, "value": value}}`, `Remove{key}` becomes
`{"Remove": {"key": key}}`.  The first four bytes of the result announce the
total encoded length. -/
def encode : Command → List Nat
  | .set k v =>
      u32le (37 + k.length + v.length) ++ [3] ++ setName ++
        (u32le (27 + k.length + v.length) ++ elemKey ++ bsonStr k ++
          elemVal ++ bsonStr v ++ [0]) ++ [0]
  | .remove k =>
      u32le (28 + k.length) ++ [3] ++ removeName ++
        (u32le (15 + k.length) ++ elemKey ++ bsonStr k ++ [0]) ++ [0]

/-- Read a 4-byte little-endian unsigned integer from the front of a buffer. -/
def readU32 : List Nat → Option (Nat × List Nat)
  | b0 :: b1 :: b2 :: b3 :: r => some (b0 + 256 * b1 + 65536 * b2 + 16777216 * b3, r)
  | _ => none

/-- Strip an expected byte sequence from the front of a buffer. -/
def stripPfx : List Nat → List Nat → Option (List Nat)
  | [], b => some b
  | _ :: _, [] => none
  | p :: ps, x :: xs => if x = p then stripPfx ps xs else none

/-- Read one BSON string payload: length, raw bytes, terminating zero. -/
def readStr (b : List Nat) : Option (Bytes × List Nat) :=
  match readU32 b with
  | none => none
  | some (n, r) =>
      if n = 0 then none
      else if r.length < n then none
      else
        match r.drop (n - 1) with
        | 0 :: r2 => some (r.take (n - 1), r2)
        | _ => none

/-- Parse the body of a `Set` document after its tag. -/
def parseSetBody (b : List Nat) : Option Command :=
  match readU32 b with
  | none => none
  | some (_, r1) =>
    match stripPfx elemKey r1 with
    | none => none
    | some r2 =>
      match readStr r2 with
      | none => none
      | some (k, r3) =>
        match stripPfx elemVal r3 with
        | none => none
        | some r4 =>
          match readStr r4 with
          | none => none
          | some (v, r5) =>
            match stripPfx [0, 0] r5 with
            | some _ => some (.set k v)
            | none => none

/-- Parse the body of a `Remove` document after its tag. -/
def parseRemoveBody (b : List Nat) : Option Command :=
  match readU32 b with
  | none => none
  | some (_, r1) =>
    match stripPfx elemKey r1 with
    | none => none
    | some r2 =>
      match readStr r2 with
      | none => none
      | some (k, r3) =>
        match stripPfx [0, 0] r3 with
        | some _ => some (.remove k)
        | none => none

/-- Modelled from the spec / the `bson` dependency: decoding one record from a
buffer.  The announced length is checked against the available bytes (a
truncated buffer fails to decode); bytes after the announced length are
ignored, which is how the loader tolerates the newline delimiter appended by
`set`.  Mirrors `bson::from_slice` as used in `load` and the
`Document::from_reader`/`bson::from_document` pair used in `get`. -/
def fromSlice (b : List Nat) : Option Command :=
  match readU32 b with
  | none => none
  | some (len, r) =>
    if b.length < len then none
    else
      match stripPfx (3 :: setName) r with
      | some r2 => parseSetBody r2
      | none =>
        match stripPfx (3 :: removeName) r with
        | some r2 => parseRemoveBody r2
        | none => none

/-- Announced length of an encoded record: the value of its first four bytes. -/
def announced (b : List Nat) : Nat :=
  match readU32 b with
  | some (n, _) => n
  | none => 0

/-- Whether a byte is a UTF-8 continuation byte. -/
def utf8Cont (b : Nat) : Bool := 128 ≤ b && b ≤ 191

/-- UTF-8 validity of a byte string, as checked by Rust's `read_line` when it
appends the bytes read to a `String` (`load` fails with an I/O error on a line
that is not valid UTF-8). -/
def validUtf8 : List Nat → Bool
  | [] => true
  | b :: r =>
    if b ≤ 127 then validUtf8 r
    else if 194 ≤ b && b ≤ 223 then
      match r with
      | c1 :: r1 => utf8Cont c1 && validUtf8 r1
      | [] => false
    else if b = 224 then
      match r with
      | c1 :: c2 :: r2 => (160 ≤ c1 && c1 ≤ 191) && utf8Cont c2 && validUtf8 r2
      | _ => false
    else if 225 ≤ b && b ≤ 236 then
      match r with
      | c1 :: c2 :: r2 => utf8Cont c1 && utf8Cont c2 && validUtf8 r2
      | _ => false
    else if b = 237 then
      match r with
      | c1 :: c2 :: r2 => (128 ≤ c1 && c1 ≤ 159) && utf8Cont c2 && validUtf8 r2
      | _ => false
    else if 238 ≤ b && b ≤ 239 then
      match r with
      | c1 :: c2 :: r2 => utf8Cont c1 && utf8Cont c2 && validUtf8 r2
      | _ => false
    else if b = 240 then
      match r with
      | c1 :: c2 :: c3 :: r3 => (144 ≤ c1 && c1 ≤ 191) && utf8Cont c2 && utf8Cont c3 && validUtf8 r3
      | _ => false
    else if 241 ≤ b && b ≤ 243 then
      match r with
      | c1 :: c2 :: c3 :: r3 => utf8Cont c1 && utf8Cont c2 && utf8Cont c3 && validUtf8 r3
      | _ => false
    else if b = 244 then
      match r with
      | c1 :: c2 :: c3 :: r3 => (128 ≤ c1 && c1 ≤ 143) && utf8Cont c2 && utf8Cont c3 && validUtf8 r3
      | _ => false
    else false

/-- Position and length of an encoded record in the log, together with the
generation of the file holding it.  Mirrors `struct CommandPos`. -/
structure CommandPos where
  gen : Nat
  pos : Nat
  len : Nat
deriving DecidableEq, Repr

/-- In-memory index: an ordered mapping from key to record location,
mirroring the `BTreeMap<String, CommandPos>`; entries are kept sorted by key. -/
abbrev Idx := List (Bytes × CommandPos)

/-- Strict lexicographic order on byte strings (the `BTreeMap` key order). -/
def ltBytes : Bytes → Bytes → Bool
  | [], [] => false
  | [], _ :: _ => true
  | _ :: _, [] => false
  | a :: as, b :: bs => if a < b then true else if b < a then false else ltBytes as bs

/-- Insert into the index, returning the replaced location (if any), as
`BTreeMap::insert` does. -/
def idxInsert (k : Bytes) (cp : CommandPos) : Idx → Option CommandPos × Idx
  | [] => (none, [(k, cp)])
  | (k', cp') :: r =>
    if k = k' then (some cp', (k, cp) :: r)
    else if ltBytes k k' then (none, (k, cp) :: (k', cp') :: r)
    else
      let res := idxInsert k cp r
      (res.1, (k', cp') :: res.2)

/-- Delete from the index, returning the removed location (if any), as
`BTreeMap::remove` does. -/
def idxErase (k : Bytes) : Idx → Option CommandPos × Idx
  | [] => (none, [])
  | (k', cp') :: r =>
    if k = k' then (some cp', r)
    else
      let res := idxErase k r
      (res.1, (k', cp') :: res.2)

/-- Look up a key in the index, as `BTreeMap::get` does. -/
def idxLookup (k : Bytes) : Idx → Option CommandPos
  | [] => none
  | (k', cp') :: r => if k = k' then some cp' else idxLookup k r

/-- Association-list update: replace the value at a key, or append the pair. -/
def aUpd {α : Type} : List (Nat × α) → Nat → α → List (Nat × α)
  | [], g, v => [(g, v)]
  | (g', v') :: r, g, v => if g' = g then (g, v) :: r else (g', v') :: aUpd r g v

/-- Association-list lookup. -/
def aGet {α : Type} : List (Nat × α) → Nat → Option α
  | [], _ => none
  | (g', v') :: r, g => if g' = g then some v' else aGet r g

/-- The length of an `Option CommandPos`, zero when absent. -/
def oldLen : Option CommandPos → Nat
  | some cp => cp.len
  | none => 0

/-- Log directory: generation number to file contents.  File `g` of the model
corresponds to `g.log` on disk. -/
abbrev Files := List (Nat × Bytes)

/-- Read handles: generation number to the pair of the tracked position field
of `BufReaderWithPos` and the true underlying stream position.  The two can
disagree because `load` reads through the inner `BufReader` directly, which
does not update the tracked field. -/
abbrev Readers := List (Nat × (Nat × Nat))

/-- Errors of the engine (`enum KvError`), with panics of the source
(`expect`/`unwrap`) modelled as the distinguished outcome `crash`. -/
inductive Err where
  | ioErr
  | deserErr
  | notFound
  | unexpectedCommandType
  | crash
deriving DecidableEq, Repr

/-- Message attached to an error by its `Display` implementation
(`#[error(...)]` attributes in `error.rs`); for the fallible constructors the
model keeps only the fixed prefix of the formatted text. -/
def errMessage : Err → String
  | .ioErr => "IO error"
  | .deserErr => "BSON deserialization error"
  | .notFound => "Key not found"
  | .unexpectedCommandType => "Unexpected command type"
  | .crash => "panicked"

/-- State of the storage engine: mirrors `struct KvStore` (the `path` field is
the identity of the directory and plays no role in the semantics).  The
writer's tracked position always equals the current generation file's length,
which is how the program maintains it (fresh file at open, append-only
writes). -/
structure KvState where
  files : Files
  readers : Readers
  currentGen : Nat
  index : Idx
  uncompacted : Nat
deriving DecidableEq, Repr

/-- Compaction threshold constant (`COMPACTION_THRESHOLD`). -/
def COMPACTION_THRESHOLD : Nat := 1024 * 1024

/-- Contents of one generation file (empty when the generation is absent,
which the program never observes in reachable states). -/
def fileOf (s : KvState) (g : Nat) : Bytes := (aGet s.files g).getD []

/-- Body of `KvStore::compact`'s loop: for each index entry in order, read the
record's bytes from its old generation and append them to the compaction
file, rebinding the entry to its new location.  The seek is skipped when the
tracked reader position already equals the record offset (`if reader.pos !=
cmd_pos.pos`), in which case the copy proceeds from the true stream position;
`io::copy` through `take(len)` copies at most `len` bytes, fewer if the stream
ends first, and the copied count becomes the new length. -/
def compactLoop (cgen : Nat) : Idx → Files → Readers → Nat → Idx × Files × Readers
  | [], fs, rds, _ => ([], fs, rds)
  | (k, cp) :: rest, fs, rds, newPos =>
    let r0 := (aGet rds cp.gen).getD (0, 0)
    let r1 := if r0.1 ≠ cp.pos then (cp.pos, cp.pos) else r0
    let file := (aGet fs cp.gen).getD []
    let seg := (file.drop r1.2).take cp.len
    let rds' := aUpd rds cp.gen (r1.1 + seg.length, r1.2 + seg.length)
    let fs' := aUpd fs cgen ((aGet fs cgen).getD [] ++ seg)
    let res := compactLoop cgen rest fs' rds' (newPos + seg.length)
    ((k, ⟨cgen, newPos, seg.length⟩) :: res.1, res.2.1, res.2.2)

/-- `KvStore::compact`: advance the current generation by two, rewrite the
live records into generation `current + 1`, delete every generation strictly
below it (the stale set is collected from the reader map), and reset the
uncompacted counter to zero. -/
def compactOp (s : KvState) : KvState :=
  let cgen := s.currentGen + 1
  let ngen := s.currentGen + 2
  let fs0 := aUpd s.files ngen []
  let rds0 := aUpd s.readers ngen (0, 0)
  let fs1 := aUpd fs0 cgen []
  let rds1 := aUpd rds0 cgen (0, 0)
  let res := compactLoop cgen s.index fs1 rds1 0
  let stale := (res.2.2.map Prod.fst).filter (fun g => decide (g < cgen))
  { files := res.2.1.filter (fun p => !(stale.contains p.1))
    readers := res.2.2.filter (fun p => !(decide (p.1 < cgen)))
    currentGen := ngen
    index := res.1
    uncompacted := 0 }

/-- First phase of `KvStore::set`, before the compaction check: encode the
record, append it to the current generation followed by one newline byte
(`writeln!(buffer)`), flush, and insert the key at range
`pos .. writer.pos`, adding a replaced record's length to the uncompacted
counter. -/
def setPhase1 (s : KvState) (k v : Bytes) : KvState :=
  let file := fileOf s s.currentGen
  let pos := file.length
  let buffer := encode (.set k v) ++ [10]
  let fs := aUpd s.files s.currentGen (file ++ buffer)
  let res := idxInsert k ⟨s.currentGen, pos, buffer.length⟩ s.index
  { s with files := fs, index := res.2, uncompacted := s.uncompacted + oldLen res.1 }

/-- `KvStore::set`: append and index the record, then run compaction when the
uncompacted counter exceeds the threshold (`if self.uncompacted >
COMPACTION_THRESHOLD`). -/
def setOp (s : KvState) (k v : Bytes) : KvState :=
  let s' := setPhase1 s k v
  if s'.uncompacted > COMPACTION_THRESHOLD then compactOp s' else s'

/-- `KvStore::remove`: on a present key, append the encoded `Remove` record
(with no trailing delimiter), delete the key from the index and add the
deleted record's length to the uncompacted counter; on an absent key, fail
with `KvError::NotFound` and change nothing. -/
def removeOp (s : KvState) (k : Bytes) : Except Err Unit × KvState :=
  if (idxLookup k s.index).isSome then
    let buffer := encode (.remove k)
    let fs := aUpd s.files s.currentGen (fileOf s s.currentGen ++ buffer)
    let res := idxErase k s.index
    (.ok (), { s with files := fs, index := res.2,
                      uncompacted := s.uncompacted + oldLen res.1 })
  else (.error .notFound, s)

/-- `KvStore::get`: look the key up; when present, seek the generation's
reader to the record offset (updating both the tracked and the true
position), read exactly `len` bytes and decode one document from them, the
trailing delimiter byte being ignored by the length-directed decoder.  A
missing reader or an undecodable buffer is a panic in the source
(`expect` / `unwrap`), modelled as the `crash` outcome. -/
def getOp (s : KvState) (k : Bytes) : Except Err (Option Bytes) × KvState :=
  match idxLookup k s.index with
  | none => (.ok none, s)
  | some cp =>
    match aGet s.readers cp.gen with
    | none => (.error .crash, s)
    | some _ =>
      let file := fileOf s cp.gen
      let avail := (file.drop cp.pos).take cp.len
      let s' := { s with readers := (aUpd s.readers cp.gen (cp.pos + avail.length, cp.pos + avail.length)) }
      if avail.length < cp.len then (.error .ioErr, s')
      else
        match fromSlice avail with
        | none => (.error .crash, s')
        | some (.set _ v) => (.ok (some v), s')
        | some (.remove _) => (.error .unexpectedCommandType, s')

/-- Process one line read back during startup recovery (`load`'s loop body):
the line must be valid UTF-8 (`read_line` into a `String`), then one record is
decoded from it by `bson::from_slice`; errors propagate and abort the load.  A
`Set` (re)binds its key to the byte range `pos .. new_pos` of the whole line,
adding a replaced record's length to the uncompacted count; a `Remove` deletes
its key, adding both the deleted record's length and the line's own length. -/
def processLine (gen pos : Nat) (line : List Nat) (idx : Idx) (unc : Nat) :
    Except Err (Idx × Nat) :=
  if validUtf8 line then
    match fromSlice line with
    | none => .error .deserErr
    | some (.set k _) =>
      let res := idxInsert k ⟨gen, pos, line.length⟩ idx
      .ok (res.2, unc + oldLen res.1)
    | some (.remove k) =>
      let res := idxErase k idx
      .ok (res.2, unc + oldLen res.1 + line.length)
  else .error .ioErr

/-- The `read_line` loop of `load`: split the file at each newline byte
(`read_line` stops after a byte 10, or at end of file), keeping the delimiter
in the line, and fold `processLine` over the lines; `cur` accumulates the
bytes of the line being read and `pos` is the stream position of its start. -/
def loadGo (gen : Nat) : List Nat → List Nat → Nat → Idx → Nat → Except Err (Idx × Nat)
  | [], cur, pos, idx, unc =>
    if cur.isEmpty then .ok (idx, unc) else processLine gen pos cur idx unc
  | x :: r, cur, pos, idx, unc =>
    if x = 10 then
      match processLine gen pos (cur ++ [10]) idx unc with
      | .error e => .error e
      | .ok (idx', unc') => loadGo gen r [] (pos + cur.length + 1) idx' unc'
    else loadGo gen r (cur ++ [x]) pos idx unc

/-- `load`: replay one generation file from offset zero into the index,
returning the updated index and the bytes reclaimable by compaction. -/
def load (gen : Nat) (bytes : List Nat) (idx : Idx) (unc : Nat) :
    Except Err (Idx × Nat) :=
  loadGo gen bytes [] 0 idx unc

/-- Sorted insertion used to model `sort_unstable` on the generation list. -/
def insertSorted (x : Nat) : List Nat → List Nat
  | [] => [x]
  | y :: ys => if x ≤ y then x :: y :: ys else y :: insertSorted x ys

/-- Ascending sort of the generation numbers (`sorted_gen_list`). -/
def sortNat : List Nat → List Nat
  | [] => []
  | x :: xs => insertSorted x (sortNat xs)

/-- Last element of a list, zero when empty (`gen_list.last().unwrap_or(&0)`). -/
def lastD : List Nat → Nat
  | [] => 0
  | [x] => x
  | _ :: y :: r => lastD (y :: r)

/-- Replay every generation in the given (ascending) order; after a successful
replay of a file its read handle is registered with tracked position zero but
true stream position at end of file, because the replay loop reads through the
inner buffered reader without updating the tracked field. -/
def loadGens (dir : Files) : List Nat → Idx → Nat → Readers → Except Err (Idx × Nat × Readers)
  | [], idx, unc, rds => .ok (idx, unc, rds)
  | g :: gs, idx, unc, rds =>
    let file := (aGet dir g).getD []
    match load g file idx unc with
    | .error e => .error e
    | .ok (idx', unc') => loadGens dir gs idx' unc' (aUpd rds g (0, file.length))

/-- `KvStore::open`: list the generation files, replay them in ascending
order, and open a fresh append generation numbered one past the largest
present (one, for an empty directory); opening the writer creates the new
(empty) file and a read handle for it. -/
def openStore (dir : Files) : Except Err KvState :=
  let gens := sortNat (dir.map Prod.fst)
  match loadGens dir gens [] 0 [] with
  | .error e => .error e
  | .ok (idx, unc, rds) =>
    let cg := lastD gens + 1
    .ok { files := aUpd dir cg []
          readers := aUpd rds cg (0, 0)
          currentGen := cg
          index := idx
          uncompacted := unc }

/-- Modelled from the spec: the request variants of the wire protocol
(`common.rs` is declared by `lib.rs` but its source is not present; §4.6 of
the spec gives the variants). -/
inductive Request where
  | get (key : Bytes)
  | set (key value : Bytes)
  | remove (key : Bytes)
deriving DecidableEq, Repr

/-- Modelled from the spec: `GetResponse = Ok(optional value) | Err(message)`. -/
inductive GetResponse where
  | ok (value : Option Bytes)
  | err (msg : String)
deriving DecidableEq, Repr

/-- Modelled from the spec: `SetResponse = Ok(unit) | Err(message)`. -/
inductive SetResponse where
  | ok
  | err (msg : String)
deriving DecidableEq, Repr

/-- Modelled from the spec: `RemoveResponse = Ok(unit) | Err(message)`. -/
inductive RemoveResponse where
  | ok
  | err (msg : String)
deriving DecidableEq, Repr

/-- The single response document written back for one request, tagged by the
request kind it answers (the three arms of the `match` in
`KvServer::handle_connection`). -/
inductive Resp where
  | g (r : GetResponse)
  | s (r : SetResponse)
  | rm (r : RemoveResponse)
deriving DecidableEq, Repr

/-- `KvServer::handle_connection` after decoding the request: dispatch to the
engine and translate the engine result into the response variant of the same
kind, turning an engine error into `Err` carrying its display message. -/
def handleRequest (st : KvState) : Request → Resp × KvState
  | .get k =>
    match getOp st k with
    | (.ok v, st') => (.g (.ok v), st')
    | (.error e, st') => (.g (.err (errMessage e)), st')
  | .set k v => (.s .ok, setOp st k v)
  | .remove k =>
    match removeOp st k with
    | (.ok _, st') => (.rm .ok, st')
    | (.error e, st') => (.rm (.err (errMessage e)), st')

/-- Whether an `Except` result is an error. -/
def isErr {ε α : Type} : Except ε α → Bool
  | .error _ => true
  | .ok _ => false

/-- Largest generation number present in a directory (zero when empty). -/
def maxGens (dir : Files) : Nat := List.foldl Nat.max 0 (dir.map Prod.fst)

/-- The directory contains a file for the current generation.  This holds in
every reachable state (the writer's file is created on open and on
compaction) and is what makes the generation counter survive restarts. -/
def hasCur (s : KvState) : Prop := s.currentGen ∈ s.files.map Prod.fst

instance (s : KvState) : Decidable (hasCur s) := by
  unfold hasCur; infer_instance

/-- Ascending order of a list of naturals (used to reason about the sorted
generation list). -/
def ascB : List Nat → Bool
  | [] => true
  | [_] => true
  | x :: y :: r => decide (x ≤ y) && ascB (y :: r)

/-- Log bytes produced by a sequence of `set` appends: each record is the
encoding followed by the newline delimiter byte. -/
def logOf : List (Bytes × Bytes) → List Nat
  | [] => []
  | p :: r => encode (.set p.1 p.2) ++ 10 :: logOf r

/-- A `set` record whose encoded form replays cleanly: sizes fit in 32 bits,
no interior newline byte, and the delimited line is valid UTF-8 (true of any
record over ASCII keys and values of moderate length). -/
def goodRec (p : Bytes × Bytes) : Prop :=
  37 + p.1.length + p.2.length < 4294967296 ∧
  10 ∉ encode (.set p.1 p.2) ∧
  validUtf8 (encode (.set p.1 p.2) ++ [10]) = true

instance (p : Bytes × Bytes) : Decidable (goodRec p) := by
  unfold goodRec; infer_instance

/-- The engine state produced by opening an empty directory. -/
def freshState : KvState :=
  { files := [(1, [])], readers := [(1, (0, 0))], currentGen := 1,
    index := [], uncompacted := 0 }

/-- A state whose next overwrite lands the uncompacted counter exactly on the
compaction threshold: key `[97]` is bound to a one-byte-long record and the
counter is one below the threshold. -/
def nearThresholdState : KvState :=
  { files := [(1, [])], readers := [(1, (0, 0))], currentGen := 1,
    index := [([97], ⟨1, 0, 1⟩)], uncompacted := 1048575 }

/-- A state whose next overwrite pushes the uncompacted counter strictly past
the compaction threshold. -/
def pastThresholdState : KvState :=
  { files := [(1, [])], readers := [(1, (0, 0))], currentGen := 1,
    index := [([97], ⟨1, 0, 1⟩)], uncompacted := 2000000 }

lemma getOp_frame (s : KvState) (k : Bytes) :
    (getOp s k).2.files = s.files ∧ (getOp s k).2.index = s.index ∧
    (getOp s k).2.currentGen = s.currentGen ∧
    (getOp s k).2.uncompacted = s.uncompacted := by
  unfold getOp
  split
  · exact ⟨rfl, rfl, rfl, rfl⟩
  · split
    · exact ⟨rfl, rfl, rfl, rfl⟩
    · dsimp only
      split
      · exact ⟨rfl, rfl, rfl, rfl⟩
      · split <;> exact ⟨rfl, rfl, rfl, rfl⟩

lemma idxErase_fst (k : Bytes) (idx : Idx) : (idxErase k idx).1 = idxLookup k idx := by
  induction idx with
  | nil => rfl
  | cons p r ih =>
    obtain ⟨k', cp'⟩ := p
    simp only [idxErase, idxLookup]
    split <;> simp [ih]

lemma idxLookup_idxInsert_self (k : Bytes) (cp : CommandPos) (idx : Idx) :
    idxLookup k (idxInsert k cp idx).2 = some cp := by
  induction idx with
  | nil => simp [idxInsert, idxLookup]
  | cons p r ih =>
    obtain ⟨k', cp'⟩ := p
    simp only [idxInsert]
    by_cases h : k = k'
    · simp [h, idxLookup]
    · simp only [if_neg h]
      split
      · simp [idxLookup]
      · simp [idxLookup, h, ih]

lemma aGet_aUpd_self {α : Type} (l : List (Nat × α)) (g : Nat) (v : α) :
    aGet (aUpd l g v) g = some v := by
  induction l with
  | nil => simp [aUpd, aGet]
  | cons p r ih =>
    obtain ⟨g', v'⟩ := p
    simp only [aUpd]
    split
    · simp [aGet]
    · next h => simp [aGet, ih, h]

/-- C10: `get` is read-only — for every key, `get` leaves the index mapping,
the uncompacted counter, the current generation number, and the contents of
every log file unchanged, whether the key is present or absent and whether
the read succeeds or fails (only the reader positions move). -/
theorem get_is_read_only (s : KvState) (k : Bytes) :
    (getOp s k).2.index = s.index ∧ (getOp s k).2.uncompacted = s.uncompacted ∧
    (getOp s k).2.currentGen = s.currentGen ∧ (getOp s k).2.files = s.files :=
  ⟨(getOp_frame s k).2.1, (getOp_frame s k).2.2.2, (getOp_frame s k).2.2.1,
    (getOp_frame s k).1⟩

/-- C7: `remove` on a key absent from the index fails with the key-not-found
error, appends nothing to the log, and leaves the whole state (in particular
the index and the uncompacted counter) unchanged. -/
theorem remove_absent_atomic (s : KvState) (k : Bytes)
    (h : idxLookup k s.index = none) :
    removeOp s k = (.error .notFound, s) := by
  unfold removeOp
  simp [h]

/-- Witness for C7 at a concrete state. -/
theorem remove_absent_atomic_witness :
    removeOp freshState [97] = (.error .notFound, freshState) :=
  remove_absent_atomic freshState [97] (by decide)

/-- C8: with no index entry for the key, a `Get` request is answered with
`GetResponse::Ok` carrying nothing (never an `Err`), while a `Remove` request
is answered with `RemoveResponse::Err` whose message is exactly
"Key not found". -/
theorem protocol_key_not_found (s : KvState) (k : Bytes)
    (h : idxLookup k s.index = none) :
    handleRequest s (.get k) = (.g (.ok none), s) ∧
    (handleRequest s (.remove k)).1 = .rm (.err "Key not found") := by
  unfold handleRequest getOp removeOp
  simp [h]
  rfl

/-- Witness for C8 at a concrete state. -/
theorem protocol_key_not_found_witness :
    handleRequest freshState (.get [99]) = (.g (.ok none), freshState) ∧
    (handleRequest freshState (.remove [99])).1 = .rm (.err "Key not found") :=
  protocol_key_not_found freshState [99] (by decide)

/-- C5 (amended): `remove` of a present key increases the uncompacted counter
by exactly the previous record's length — the length of the just-appended
`Remove` record is not added by `remove` (it is added only by `load` during
startup replay). -/
theorem remove_accounting (s : KvState) (k : Bytes) (cp : CommandPos)
    (h : idxLookup k s.index = some cp) :
    (removeOp s k).1 = .ok () ∧
    (removeOp s k).2.uncompacted = s.uncompacted + cp.len := by
  unfold removeOp
  rw [h]
  simp [idxErase_fst, h, oldLen]

/-- Witness for C5's amended statement at a concrete state. -/
theorem remove_accounting_witness :
    (removeOp nearThresholdState [97]).1 = .ok () ∧
    (removeOp nearThresholdState [97]).2.uncompacted =
      nearThresholdState.uncompacted + 1 :=
  remove_accounting nearThresholdState [97] ⟨1, 0, 1⟩ (by decide)

/-- C5 counterexample: starting from the freshly-opened empty store, `set`
then `remove` of key `[97]` increases the uncompacted counter by 40 (the
previous record's length alone) and not by the claimed 40 plus 29 (the
`Remove` record's own encoded length). -/
theorem remove_accounting_counterexample :
    oldLen (idxLookup [97] (setOp freshState [97] [49]).index) = 40 ∧
    (encode (.remove [97])).length = 29 ∧
    (removeOp (setOp freshState [97] [49]) [97]).2.uncompacted = 40 ∧
    (removeOp (setOp freshState [97] [49]) [97]).2.uncompacted ≠
      (setOp freshState [97] [49]).uncompacted + 40 + 29 := by
  refine ⟨by decide, by decide, by decide, by decide⟩

/-- C6 (amended): the compaction threshold is 1 MiB (1024*1024 bytes), and
after the append-and-index phase of `set`, compaction runs if and only if the
uncompacted counter is strictly greater than the threshold — at exactly the
threshold no compaction happens. -/
theorem compaction_trigger (s : KvState) (k v : Bytes) :
    COMPACTION_THRESHOLD = 1024 * 1024 ∧
    ((setPhase1 s k v).uncompacted ≤ COMPACTION_THRESHOLD →
      setOp s k v = setPhase1 s k v) ∧
    (COMPACTION_THRESHOLD < (setPhase1 s k v).uncompacted →
      (setOp s k v).currentGen = s.currentGen + 2 ∧
      (setOp s k v).uncompacted = 0) := by
  refine ⟨rfl, ?_, ?_⟩
  · intro h
    unfold setOp
    rw [if_neg (by omega)]
  · intro h
    unfold setOp
    rw [if_pos (by exact h)]
    exact ⟨rfl, rfl⟩

/-- Witness for C6's amended statement: one concrete state on each side of
the threshold. -/
theorem compaction_trigger_witness :
    setOp nearThresholdState [97] [50] = setPhase1 nearThresholdState [97] [50] ∧
    (setOp pastThresholdState [97] [50]).currentGen =
      pastThresholdState.currentGen + 2 ∧
    (setOp pastThresholdState [97] [50]).uncompacted = 0 :=
  ⟨(compaction_trigger nearThresholdState [97] [50]).2.1 (by decide),
    (compaction_trigger pastThresholdState [97] [50]).2.2 (by decide)⟩

/-- C6 counterexample: a `set` that lands the uncompacted counter exactly on
the threshold (1048576) does not run compaction — the generation stays put
and the counter stays at the threshold instead of resetting to zero — so the
claimed "greater than or equal" trigger condition is false. -/
theorem compaction_trigger_counterexample :
    (setPhase1 nearThresholdState [97] [50]).uncompacted = COMPACTION_THRESHOLD ∧
    (setOp nearThresholdState [97] [50]).currentGen =
      nearThresholdState.currentGen ∧
    (setOp nearThresholdState [97] [50]).uncompacted ≠ 0 := by
  refine ⟨by decide, by decide, by decide⟩

/-- C1: the durability-after-acknowledgement claim fails on the code.  On a
fresh (empty) directory the store acknowledges `set([97],[49])`,
`remove([97])`, and `set([98],[50])` in that order; replaying the log files
those operations produced, `open` succeeds but `get([98])` returns nothing
instead of `[50]`.  The `Remove` record was appended with no trailing
delimiter, so the replay loop reads it and the following `Set` record as one
line, the length-directed decoder yields only the leading `Remove`, and the
acknowledged `Set` for `[98]` is silently discarded. -/
theorem durability_lost_after_remove :
    (openStore []).map (fun s0 =>
      let s1 := setOp s0 [97] [49]
      let r2 := removeOp s1 [97]
      let s3 := setOp r2.2 [98] [50]
      (r2.1, (openStore s3.files).map
        (fun s4 => ((getOp s4 [98]).1, (getOp s4 [97]).1)))) =
    .ok (.ok (), .ok (.ok none, .ok none)) := by
  rfl

/-- C4: the compaction-preserves-state claim fails on the code.  Open a
directory whose single log file `1.log` holds one complete `Set` record for
key `[97]`; before compaction `get([97])` returns `[49]`, but `compact()`
called on the freshly-opened store copies zero bytes for the record (the
tracked reader position, left at zero by the replay loop, coincides with the
record offset, so the copy proceeds from the true stream position at end of
file) and afterwards `get([97])` panics on decoding an empty buffer instead
of returning `[49]`.  The uncompacted counter is zero after `compact()`, as
the claim also states, but the preservation half is violated. -/
theorem compaction_corrupts_freshly_opened_store :
    (openStore [(1, encode (.set [97] [49]) ++ [10])]).map (fun s =>
      ((getOp s [97]).1, (getOp (compactOp s) [97]).1,
        (compactOp s).uncompacted)) =
    .ok (.ok (some [49]), .error .crash, 0) := by
  rfl

lemma readU32_u32le (n : Nat) (r : List Nat) (h : n < 4294967296) :
    readU32 (u32le n ++ r) = some (n, r) := by
  simp only [u32le, List.cons_append, List.nil_append, readU32, Option.some.injEq,
    Prod.mk.injEq]
  refine ⟨by omega, trivial⟩

lemma stripPfx_append (p r : List Nat) : stripPfx p (p ++ r) = some r := by
  induction p with
  | nil => rfl
  | cons x xs ih => simp [stripPfx, ih]

lemma readStr_bsonStr (s : Bytes) (r : List Nat) (h : s.length + 1 < 4294967296) :
    readStr (bsonStr s ++ r) = some (s, r) := by
  unfold readStr bsonStr
  rw [List.append_assoc, List.append_assoc]
  rw [readU32_u32le _ _ h]
  have h1 : ¬ (s.length + 1 = 0) := by omega
  have h2 : ¬ ((s ++ ([0] ++ r)).length < s.length + 1) := by
    simp [List.length_append]
  simp only [h1, if_false, h2, Nat.add_sub_cancel]
  rw [show s.length = s.length from rfl, List.drop_left, List.take_left]
  rfl

lemma encSet_length (k v : Bytes) :
    (encode (.set k v)).length = 37 + k.length + v.length := by
  simp [encode, u32le, bsonStr, setName, elemKey, elemVal, List.length_append]
  omega

lemma encRemove_length (k : Bytes) :
    (encode (.remove k)).length = 28 + k.length := by
  simp [encode, u32le, bsonStr, removeName, elemKey, List.length_append]
  omega

lemma announced_encSet (k v : Bytes) (h : 37 + k.length + v.length < 4294967296) :
    announced (encode (.set k v)) = 37 + k.length + v.length := by
  unfold announced
  rw [show encode (.set k v) =
    (u32le (37 + k.length + v.length) ++ ([3] ++ setName ++
      (u32le (27 + k.length + v.length) ++ elemKey ++ bsonStr k ++
        elemVal ++ bsonStr v ++ [0]) ++ [0])) from by
    simp [encode, List.append_assoc]]
  rw [readU32_u32le _ _ h]

lemma announced_encRemove (k : Bytes) (h : 28 + k.length < 4294967296) :
    announced (encode (.remove k)) = 28 + k.length := by
  unfold announced
  rw [show encode (.remove k) =
    (u32le (28 + k.length) ++ ([3] ++ removeName ++
      (u32le (15 + k.length) ++ elemKey ++ bsonStr k ++ [0]) ++ [0])) from by
    simp [encode, List.append_assoc]]
  rw [readU32_u32le _ _ h]

lemma fromSlice_encSet (k v : Bytes) (t : List Nat)
    (h : 37 + k.length + v.length < 4294967296) :
    fromSlice (encode (.set k v) ++ t) = some (.set k v) := by
  have h1 : k.length + 1 < 4294967296 := by omega
  have h2 : v.length + 1 < 4294967296 := by omega
  have h3 : 27 + k.length + v.length < 4294967296 := by omega
  have hlen : ¬ ((encode (.set k v) ++ t).length < 37 + k.length + v.length) := by
    rw [List.length_append, encSet_length]; omega
  have hb : encode (.set k v) ++ t =
      u32le (37 + k.length + v.length) ++ ((3 :: setName) ++
        (u32le (27 + k.length + v.length) ++ (elemKey ++ (bsonStr k ++
          (elemVal ++ (bsonStr v ++ ([0, 0] ++ t))))))) := by
    simp [encode, List.append_assoc]
  unfold fromSlice
  rw [hb] at hlen ⊢
  rw [readU32_u32le _ _ h]
  dsimp only
  rw [if_neg hlen]
  rw [stripPfx_append]
  unfold parseSetBody
  dsimp only
  rw [readU32_u32le _ _ h3]
  dsimp only
  rw [stripPfx_append]
  dsimp only
  rw [readStr_bsonStr _ _ h1]
  dsimp only
  rw [stripPfx_append]
  dsimp only
  rw [readStr_bsonStr _ _ h2]
  dsimp only
  rw [stripPfx_append]

/-- C3 (amended): `remove` appends exactly the length-prefixed encoding of its
record, but `set` appends the encoding followed by one newline delimiter byte,
so the byte length recorded in the index for a `set` append equals the
record's announced encoded length plus one. -/
theorem framing_of_appends (s : KvState) (k v : Bytes)
    (hs : 37 + k.length + v.length < 4294967296)
    (hr : 28 + k.length < 4294967296) :
    fileOf (setPhase1 s k v) s.currentGen =
      fileOf s s.currentGen ++ (encode (.set k v) ++ [10]) ∧
    idxLookup k (setPhase1 s k v).index =
      some ⟨s.currentGen, (fileOf s s.currentGen).length,
        announced (encode (.set k v)) + 1⟩ ∧
    announced (encode (.set k v)) = (encode (.set k v)).length ∧
    ((idxLookup k s.index).isSome = true →
      fileOf (removeOp s k).2 s.currentGen =
        fileOf s s.currentGen ++ encode (.remove k)) ∧
    announced (encode (.remove k)) = (encode (.remove k)).length := by
  have ha : announced (encode (.set k v)) = 37 + k.length + v.length :=
    announced_encSet k v hs
  refine ⟨?_, ?_, ?_, ?_, ?_⟩
  · unfold setPhase1 fileOf
    dsimp only
    rw [aGet_aUpd_self]
    rfl
  · unfold setPhase1
    dsimp only
    rw [idxLookup_idxInsert_self, ha, List.length_append, encSet_length]
    rfl
  · rw [ha, encSet_length]
  · intro hp
    unfold removeOp fileOf
    rw [hp]
    dsimp only
    rw [if_pos rfl, aGet_aUpd_self]
    rfl
  · rw [announced_encRemove k hr, encRemove_length]

/-- Witness for C3's amended statement at a concrete state and record. -/
theorem framing_of_appends_witness :
    fileOf (setPhase1 nearThresholdState [97] [49]) 1 =
      fileOf nearThresholdState 1 ++ (encode (.set [97] [49]) ++ [10]) ∧
    announced (encode (.set [97] [49])) = (encode (.set [97] [49])).length ∧
    fileOf (removeOp nearThresholdState [97]).2 1 =
      fileOf nearThresholdState 1 ++ encode (.remove [97]) := by
  have h := framing_of_appends nearThresholdState [97] [49] (by decide) (by decide)
  exact ⟨h.1, h.2.2.1, h.2.2.2.1 (by decide)⟩

/-- C3 counterexample: for the very first `set` on a freshly-opened store the
bytes appended to the log are not exactly the encoded record (a trailing
newline delimiter follows it), and the byte length recorded in the index (40)
differs from the record's announced encoded length (39). -/
theorem framing_of_appends_counterexample :
    fileOf (setPhase1 freshState [97] [49]) 1 ≠ encode (.set [97] [49]) ∧
    idxLookup [97] (setPhase1 freshState [97] [49]).index =
      some ⟨1, 0, 40⟩ ∧
    announced (encode (.set [97] [49])) = 39 := by
  refine ⟨by decide, by decide, by decide⟩

lemma loadGo_cons_line (gen : Nat) (l : List Nat) (hl : 10 ∉ l) :
    ∀ (cur : List Nat) (pos : Nat) (idx : Idx) (unc : Nat) (r : List Nat),
    loadGo gen (l ++ 10 :: r) cur pos idx unc =
      match processLine gen pos ((cur ++ l) ++ [10]) idx unc with
      | .error e => .error e
      | .ok (idx', unc') =>
          loadGo gen r [] (pos + (cur ++ l).length + 1) idx' unc' := by
  induction l with
  | nil =>
    intro cur pos idx unc r
    simp [loadGo]
  | cons x xs ih =>
    intro cur pos idx unc r
    have hx : x ≠ 10 := fun hh => hl (hh ▸ List.mem_cons_self x xs)
    have hxs : 10 ∉ xs := fun hh => hl (List.mem_cons_of_mem _ hh)
    rw [List.cons_append, loadGo, if_neg hx, ih hxs (cur ++ [x]) pos idx unc r]
    rw [show (cur ++ [x]) ++ xs = cur ++ (x :: xs) from by simp]

lemma loadGo_tail (gen : Nat) (t : List Nat) (ht : 10 ∉ t) (hne : t ≠ []) :
    ∀ (cur : List Nat) (pos : Nat) (idx : Idx) (unc : Nat),
    loadGo gen t cur pos idx unc = processLine gen pos (cur ++ t) idx unc := by
  induction t with
  | nil => cases hne rfl
  | cons x xs ih =>
    intro cur pos idx unc
    have hx : x ≠ 10 := fun hh => ht (hh ▸ List.mem_cons_self x xs)
    have hxs : 10 ∉ xs := fun hh => ht (List.mem_cons_of_mem _ hh)
    rw [loadGo, if_neg hx]
    cases hxe : xs with
    | nil =>
      rw [loadGo]
      have : (cur ++ [x]).isEmpty = false := by simp
      rw [this]
      simp
    | cons y ys =>
      rw [← hxe, ih (hxe ▸ hxs) (hxe ▸ (by simp : (y : Nat) :: ys ≠ [])) (cur ++ [x]) pos idx unc]
      rw [show (cur ++ [x]) ++ xs = cur ++ (x :: xs) from by simp]

lemma loadGo_logOf (gen : Nat) :
    ∀ (cs : List (Bytes × Bytes)), (∀ p ∈ cs, goodRec p) →
    ∀ (r : List Nat) (pos : Nat) (idx : Idx) (unc : Nat),
    ∃ pos' idx' unc',
      loadGo gen (logOf cs ++ r) [] pos idx unc = loadGo gen r [] pos' idx' unc' := by
  intro cs
  induction cs with
  | nil => exact fun _ r pos idx unc => ⟨pos, idx, unc, rfl⟩
  | cons p cs' ih =>
    intro hcs r pos idx unc
    obtain ⟨h32, hno10, hutf⟩ := hcs p (List.mem_cons_self p cs')
    have hrest : ∀ q ∈ cs', goodRec q := fun q hq => hcs q (List.mem_cons_of_mem _ hq)
    rw [show logOf (p :: cs') ++ r =
      encode (.set p.1 p.2) ++ 10 :: (logOf cs' ++ r) from by simp [logOf]]
    rw [loadGo_cons_line gen _ hno10 [] pos idx unc _]
    rw [List.nil_append]
    unfold processLine
    rw [if_pos hutf, fromSlice_encSet p.1 p.2 [10] h32]
    dsimp only
    exact ih hrest r _ _ _

lemma processLine_isErr (gen pos : Nat) (t : List Nat) (idx : Idx) (unc : Nat)
    (hf : fromSlice t = none) :
    isErr (processLine gen pos t idx unc) = true := by
  unfold processLine
  cases hu : validUtf8 t with
  | false => simp [hu, isErr]
  | true => simp [hu, hf, isErr]

lemma load_single_file_isErr (g : Nat) (bytes : List Nat)
    (h : isErr (load g bytes [] 0) = true) :
    isErr (openStore [(g, bytes)]) = true := by
  unfold openStore loadGens
  rcases he : load g bytes [] 0 with e | v
  · simp only [List.map_cons, List.map_nil, sortNat, insertSorted]
    rw [show aGet [(g, bytes)] g = some bytes from by simp [aGet]]
    dsimp only [Option.getD]
    rw [he]
    rfl
  · rw [he] at h
    exact absurd h (by simp [isErr])

/-- C2 (amended): startup recovery has no tolerance for a partial final
record — replaying a log that consists of cleanly-delimited `Set` records
followed by a truncated (undecodable) tail aborts `open` with an error, just
as a corrupt record strictly before the final position (a delimited line that
fails to decode, followed by arbitrary further bytes) aborts `open`; earlier
keys do not remain readable because `open` itself fails. -/
theorem startup_recovery_aborts (cs : List (Bytes × Bytes)) (t bad rest : List Nat)
    (hcs : ∀ p ∈ cs, goodRec p) :
    (t ≠ [] → 10 ∉ t → fromSlice t = none →
      isErr (openStore [(1, logOf cs ++ t)]) = true) ∧
    (10 ∉ bad → fromSlice (bad ++ [10]) = none →
      isErr (openStore [(1, logOf cs ++ (bad ++ 10 :: rest))]) = true) := by
  constructor
  · intro hne hno10 hf
    apply load_single_file_isErr
    unfold load
    obtain ⟨pos', idx', unc', hh⟩ := loadGo_logOf 1 cs hcs t 0 [] 0
    rw [hh, loadGo_tail 1 t hno10 hne [] pos' idx' unc', List.nil_append]
    exact processLine_isErr 1 pos' t idx' unc' hf
  · intro hbad hf
    apply load_single_file_isErr
    unfold load
    obtain ⟨pos', idx', unc', hh⟩ := loadGo_logOf 1 cs hcs (bad ++ 10 :: rest) 0 [] 0
    rw [hh, loadGo_cons_line 1 bad hbad [] pos' idx' unc' rest, List.nil_append]
    have herr := processLine_isErr 1 pos' (bad ++ [10]) idx' unc' hf
    rcases hp : processLine 1 pos' (bad ++ [10]) idx' unc' with e | v
    · rfl
    · rw [hp] at herr
      exact absurd herr (by simp [isErr])

/-- Witness for C2's amended statement: one complete record followed by a
ten-byte truncated record aborts `open`, and a one-byte corrupt line strictly
before further bytes aborts `open`. -/
theorem startup_recovery_aborts_witness :
    isErr (openStore [(1, logOf [([97], [49])] ++
      (encode (.set [98] [50])).take 10)]) = true ∧
    isErr (openStore [(1, logOf [([97], [49])] ++ ([65] ++ 10 :: [0]))]) = true := by
  have h := startup_recovery_aborts [([97], [49])]
    ((encode (.set [98] [50])).take 10) [65] [0] (by decide)
  exact ⟨h.1 (by decide) (by decide) (by decide), h.2 (by decide) (by decide)⟩

/-- C2 counterexample: with a log holding one complete `Set` record for key
`[97]` followed by a truncated final record, `open` does not succeed (so the
prior key is not readable after recovery), contradicting the claimed
tolerance of a truncated tail. -/
theorem startup_recovery_aborts_counterexample :
    isErr (openStore [(1, (encode (.set [97] [49]) ++ [10]) ++
      (encode (.set [98] [50])).take 10)]) = true := by
  decide

lemma natZeroMax (n : Nat) : Nat.max 0 n = n := by
  simp only [Nat.max_def]
  split <;> omega

lemma natMaxAssoc (a b c : Nat) : (Nat.max a b).max c = a.max (b.max c) := by
  simp only [Nat.max_def]
  repeat' split
  all_goals omega

lemma natLeMaxL (a b : Nat) : a ≤ Nat.max a b := by
  simp only [Nat.max_def]
  split <;> omega

lemma natLeMaxR (a b : Nat) : b ≤ Nat.max a b := by
  simp only [Nat.max_def]
  split <;> omega

lemma ascB_tail {x : Nat} {l : List Nat} (h : ascB (x :: l) = true) :
    ascB l = true := by
  cases l with
  | nil => rfl
  | cons y ys =>
    simp only [ascB, Bool.and_eq_true, decide_eq_true_eq] at h
    exact h.2

lemma headLe_lastD {x : Nat} {l : List Nat} (h : ascB (x :: l) = true) :
    x ≤ lastD (x :: l) := by
  induction l generalizing x with
  | nil => simp [lastD]
  | cons y ys ih =>
    simp only [ascB, Bool.and_eq_true, decide_eq_true_eq] at h
    have h2 := ih h.2
    rw [show lastD (x :: y :: ys) = lastD (y :: ys) from rfl]
    exact le_trans h.1 h2

lemma insertSorted_ne_nil (x : Nat) (l : List Nat) : insertSorted x l ≠ [] := by
  cases l with
  | nil => simp [insertSorted]
  | cons y ys =>
    simp only [insertSorted]
    split <;> simp

lemma lastD_cons_ne {y : Nat} {t : List Nat} (h : t ≠ []) :
    lastD (y :: t) = lastD t := by
  cases t with
  | nil => cases h rfl
  | cons z zs => rfl

lemma lastD_insertSorted (x : Nat) :
    ∀ l, ascB l = true → lastD (insertSorted x l) = Nat.max x (lastD l) := by
  intro l
  induction l with
  | nil => intro _; simp [insertSorted, lastD]
  | cons y ys ih =>
    intro h
    simp only [insertSorted]
    split
    · next hxy =>
      have hle := headLe_lastD h
      rw [lastD_cons_ne (by simp : (y : Nat) :: ys ≠ [])]
      exact (Nat.max_eq_right (le_trans hxy hle)).symm
    · next hxy =>
      rw [lastD_cons_ne (insertSorted_ne_nil x ys), ih (ascB_tail h)]
      cases ys with
      | nil =>
        simp only [lastD]
        simp only [Nat.max_def]
        repeat' split
        all_goals omega
      | cons z zs =>
        rw [show lastD (y :: z :: zs) = lastD (z :: zs) from rfl]

lemma ascB_insertSorted (x : Nat) :
    ∀ l, ascB l = true → ascB (insertSorted x l) = true := by
  intro l
  induction l with
  | nil => intro _; rfl
  | cons y ys ih =>
    intro h
    simp only [insertSorted]
    split
    · next hxy =>
      simp only [ascB, Bool.and_eq_true, decide_eq_true_eq]
      exact ⟨hxy, h⟩
    · next hxy =>
      have h2 := ih (ascB_tail h)
      cases ys with
      | nil =>
        simp only [insertSorted, ascB, Bool.and_eq_true, decide_eq_true_eq]
        exact ⟨by omega, trivial⟩
      | cons z zs =>
        simp only [ascB, Bool.and_eq_true, decide_eq_true_eq] at h
        by_cases hxz : x ≤ z
        · rw [show insertSorted x (z :: zs) = x :: z :: zs from by
            simp [insertSorted, hxz]] at h2 ⊢
          simp only [ascB, Bool.and_eq_true, decide_eq_true_eq] at h2 ⊢
          exact ⟨by omega, h2⟩
        · rw [show insertSorted x (z :: zs) = z :: insertSorted x zs from by
            simp [insertSorted, hxz]] at h2 ⊢
          simp only [ascB, Bool.and_eq_true, decide_eq_true_eq] at h2 ⊢
          exact ⟨h.1, h2⟩

lemma ascB_sortNat : ∀ l, ascB (sortNat l) = true := by
  intro l
  induction l with
  | nil => rfl
  | cons x xs ih => exact ascB_insertSorted x _ ih

lemma foldlMax_init : ∀ (l : List Nat) (a : Nat),
    List.foldl Nat.max a l = Nat.max a (List.foldl Nat.max 0 l) := by
  intro l
  induction l with
  | nil => intro a; simp
  | cons x xs ih =>
    intro a
    simp only [List.foldl]
    rw [ih (Nat.max a x), ih (Nat.max 0 x), natZeroMax, ← natMaxAssoc]

lemma lastD_sortNat : ∀ l, lastD (sortNat l) = List.foldl Nat.max 0 l := by
  intro l
  induction l with
  | nil => rfl
  | cons x xs ih =>
    simp only [sortNat, List.foldl]
    rw [lastD_insertSorted x _ (ascB_sortNat xs), ih, foldlMax_init xs (Nat.max 0 x)]
    rw [natZeroMax]

lemma mem_le_foldlMax {a : Nat} {l : List Nat} (h : a ∈ l) :
    a ≤ List.foldl Nat.max 0 l := by
  induction l with
  | nil => cases h
  | cons x xs ih =>
    rcases List.mem_cons.1 h with h1 | h2
    · subst h1
      rw [List.foldl, foldlMax_init, natZeroMax]
      exact natLeMaxL _ _
    · rw [List.foldl, foldlMax_init]
      exact le_trans (ih h2) (natLeMaxR _ _)

lemma mem_keys_aUpd_self {α : Type} (l : List (Nat × α)) (g : Nat) (v : α) :
    g ∈ (aUpd l g v).map Prod.fst := by
  induction l with
  | nil => simp [aUpd]
  | cons p r ih =>
    obtain ⟨g', v'⟩ := p
    simp only [aUpd]
    split
    · simp
    · simpa using Or.inr (by simpa using ih)

lemma mem_keys_aUpd_of {α : Type} {l : List (Nat × α)} {g' : Nat} (g : Nat) (v : α)
    (h : g' ∈ l.map Prod.fst) : g' ∈ (aUpd l g v).map Prod.fst := by
  induction l with
  | nil => cases h
  | cons p r ih =>
    obtain ⟨g0, v0⟩ := p
    simp only [List.map_cons, List.mem_cons] at h
    simp only [aUpd]
    split
    · next he =>
      rcases h with h1 | h2
      · simp [he ▸ h1]
      · simpa using Or.inr (by simpa using h2)
    · rcases h with h1 | h2
      · simp [h1]
      · simpa using Or.inr (by simpa using ih h2)

lemma compactLoop_keys (cgen : Nat) :
    ∀ (idx : Idx) (fs : Files) (rds : Readers) (np g : Nat),
    g ∈ fs.map Prod.fst → g ∈ ((compactLoop cgen idx fs rds np).2.1).map Prod.fst := by
  intro idx
  induction idx with
  | nil => intro fs rds np g h; exact h
  | cons p rest ih =>
    intro fs rds np g h
    obtain ⟨k, cp⟩ := p
    simp only [compactLoop]
    exact ih _ _ _ g (mem_keys_aUpd_of _ _ h)

lemma compactOp_currentGen (s : KvState) :
    (compactOp s).currentGen = s.currentGen + 2 := rfl

lemma hasCur_compactOp (s : KvState) : hasCur (compactOp s) := by
  unfold hasCur compactOp
  dsimp only
  have hk : s.currentGen + 2 ∈
      ((compactLoop (s.currentGen + 1) s.index
        (aUpd (aUpd s.files (s.currentGen + 2) []) (s.currentGen + 1) [])
        (aUpd (aUpd s.readers (s.currentGen + 2) (0, 0)) (s.currentGen + 1) (0, 0))
        0).2.1).map Prod.fst := by
    apply compactLoop_keys
    exact mem_keys_aUpd_of _ _ (mem_keys_aUpd_self _ _ _)
  rcases List.mem_map.1 hk with ⟨q, hq, hq1⟩
  apply List.mem_map.2
  refine ⟨q, List.mem_filter.2 ⟨hq, ?_⟩, hq1⟩
  rw [hq1]
  cases hc : ((((compactLoop (s.currentGen + 1) s.index
      (aUpd (aUpd s.files (s.currentGen + 2) []) (s.currentGen + 1) [])
      (aUpd (aUpd s.readers (s.currentGen + 2) (0, 0)) (s.currentGen + 1) (0, 0))
      0).2.2).map Prod.fst).filter
        (fun g => decide (g < s.currentGen + 1))).contains (s.currentGen + 2) with
  | false => rfl
  | true =>
    have hm := List.mem_of_elem_eq_true hc
    have := (List.mem_filter.1 hm).2
    simp only [decide_eq_true_eq] at this
    omega

lemma hasCur_setPhase1 (s : KvState) (k v : Bytes) : hasCur (setPhase1 s k v) := by
  unfold hasCur setPhase1
  dsimp only
  exact mem_keys_aUpd_self _ _ _

lemma hasCur_setOp (s : KvState) (k v : Bytes) : hasCur (setOp s k v) := by
  unfold setOp
  dsimp only
  split
  · exact hasCur_compactOp _
  · exact hasCur_setPhase1 s k v

lemma setPhase1_currentGen (s : KvState) (k v : Bytes) :
    (setPhase1 s k v).currentGen = s.currentGen := rfl

lemma setOp_currentGen_ge (s : KvState) (k v : Bytes) :
    s.currentGen ≤ (setOp s k v).currentGen := by
  unfold setOp
  dsimp only
  split
  · rw [compactOp_currentGen, setPhase1_currentGen]
    omega
  · rw [setPhase1_currentGen]

lemma removeOp_currentGen (s : KvState) (k : Bytes) :
    ((removeOp s k).2).currentGen = s.currentGen := by
  unfold removeOp
  split <;> rfl

lemma hasCur_removeOp (s : KvState) (k : Bytes) (h : hasCur s) :
    hasCur ((removeOp s k).2) := by
  unfold hasCur removeOp
  dsimp only
  split
  · exact mem_keys_aUpd_self _ _ _
  · exact h

lemma openStore_ok (dir : Files) (s : KvState) (h : openStore dir = .ok s) :
    s.currentGen = maxGens dir + 1 ∧ hasCur s := by
  unfold openStore at h
  dsimp only at h
  rcases hl : loadGens dir (sortNat (dir.map Prod.fst)) [] 0 [] with e | ⟨idx, unc, rds⟩
  · rw [hl] at h
    simp at h
  · rw [hl] at h
    dsimp only at h
    cases h
    constructor
    · show lastD (sortNat (dir.map Prod.fst)) + 1 = maxGens dir + 1
      rw [lastD_sortNat]
      rfl
    · exact mem_keys_aUpd_self _ _ _

lemma reopen_currentGen_gt (s s₂ : KvState) (hc : hasCur s)
    (h : openStore s.files = .ok s₂) : s.currentGen < s₂.currentGen := by
  have h1 := (openStore_ok _ _ h).1
  have h2 : s.currentGen ≤ maxGens s.files := mem_le_foldlMax hc
  omega

/-- C9: generation monotonicity.  `open` sets the current generation to one
greater than the largest generation present in the directory (so one for an
empty directory); compaction advances it by exactly two; `set` can only keep
or raise it, and `remove` and `get` leave it unchanged; the directory always
keeps a file for the current generation, and reopening such a directory
yields a strictly larger current generation, so the generation number never
decreases across the engine's lifetime or across restarts. -/
theorem generation_monotonicity :
    (∀ dir s, openStore dir = .ok s → s.currentGen = maxGens dir + 1) ∧
    (∀ s, (compactOp s).currentGen = s.currentGen + 2) ∧
    (∀ s k v, s.currentGen ≤ (setOp s k v).currentGen) ∧
    (∀ s k, ((removeOp s k).2).currentGen = s.currentGen) ∧
    (∀ s k, ((getOp s k).2).currentGen = s.currentGen) ∧
    (∀ dir s, openStore dir = .ok s → hasCur s) ∧
    (∀ s k v, hasCur (setOp s k v)) ∧
    (∀ s, hasCur (compactOp s)) ∧
    (∀ s k, hasCur s → hasCur ((removeOp s k).2)) ∧
    (∀ s k, hasCur s → hasCur ((getOp s k).2)) ∧
    (∀ s s₂, hasCur s → openStore s.files = .ok s₂ →
      s.currentGen < s₂.currentGen) := by
  refine ⟨fun dir s h => (openStore_ok dir s h).1, compactOp_currentGen,
    setOp_currentGen_ge, removeOp_currentGen,
    fun s k => (getOp_frame s k).2.2.1,
    fun dir s h => (openStore_ok dir s h).2, hasCur_setOp, hasCur_compactOp,
    hasCur_removeOp, ?_, reopen_currentGen_gt⟩
  intro s k h
  unfold hasCur
  rw [(getOp_frame s k).1, (getOp_frame s k).2.2.1]
  exact h

/-- Witness for C9 at concrete inputs: opening the empty directory yields
generation one; opening the directory produced by the concrete crashed
session of three acknowledged operations yields generation two, strictly
above the generation the files came from. -/
theorem generation_monotonicity_witness :
    (∀ s, openStore [] = .ok s → s.currentGen = maxGens [] + 1) ∧
    (compactOp freshState).currentGen = freshState.currentGen + 2 ∧
    freshState.currentGen ≤ (setOp freshState [97] [49]).currentGen ∧
    (∀ s₂, openStore freshState.files = .ok s₂ →
      freshState.currentGen < s₂.currentGen) := by
  refine ⟨fun s h => generation_monotonicity.1 [] s h,
    generation_monotonicity.2.1 freshState,
    generation_monotonicity.2.2.1 freshState [97] [49],
    fun s₂ h => generation_monotonicity.2.2.2.2.2.2.2.2.2.2 freshState s₂
      (by decide) h⟩
